import Mathlib

/-!
Shallow embedding of the bilby.js functional-programming substrate
(src/node_modules/lti/node_modules/bilby/bilby.js): the immutable dispatch
environment, the tagged-sum/cata facility, the Validation applicative, the
object lens, the Option data type and the shrink rules of the QuickCheck
engine.  JavaScript objects are modelled as assignment lists with
first-match lookup (keys are unique in every object the library builds);
JavaScript values are an abstract type `V`, with `default` standing for
the JavaScript `undefined` where a property read can miss.
-/

/-- Errors a bilby call can raise.  `thrown msg` is `throw new Error(msg)`,
`typeErrorThrown msg` is `throw new TypeError(msg)` from the library source,
`hostTypeError` is the host-raised TypeError of calling a non-function
(e.g. `undefined`), and `referenceError` is the host-raised ReferenceError
of evaluating an unbound identifier. -/
inductive JsError : Type
  | thrown (msg : String)
  | typeErrorThrown (msg : String)
  | hostTypeError
  | referenceError
  deriving DecidableEq

/-- A JavaScript function value: its declared parameter count (`f.length`,
what `functionLength` reads) and its behaviour on an argument list. -/
structure JsFun (V : Type) where
  length : Nat
  apply : List V → V

/-- One entry of a multimethod registration list: bilby.js stores
`{predicate: predicate, f: f}` (environment.method, bilby.js lines 188-194). -/
structure Registration (V : Type) where
  predicate : List V → Bool
  f : JsFun V

/-- A registration list as stored on a method name.  An entry is `none` when
the array slot holds the JavaScript `undefined` (envConcat produces such a
slot via `methods[i].concat(extraMethods[i])` when `extraMethods` lacks the
key, since `Array.prototype.concat(undefined)` appends one `undefined`
element). -/
abbrev RegList (V : Type) := List (Option (Registration V))

/-- bilby.js `findRegistered` (lines 153-162): scan the registration list in
order, return the implementation of the first entry whose predicate accepts
the arguments; throw `Error("Method not implemented for this input")` when
the scan falls off the end.  Reading `.predicate` of an `undefined` slot
raises the host TypeError. -/
def findRegistered {V : Type} : RegList V → List V → Except JsError (JsFun V)
  | [], _ => .error (.thrown "Method not implemented for this input")
  | Option.none :: _, _ => .error .hostTypeError
  | Option.some r :: rest, args =>
      if r.predicate args then .ok r.f else findRegistered rest args

/-- bilby.js `makeMethod` (lines 164-169): the exposed multimethod collects
its arguments and immediately applies the implementation `findRegistered`
returns to exactly those arguments (no currying step). -/
def makeMethod {V : Type} (registrations : RegList V) (args : List V) : Except JsError V :=
  (findRegistered registrations args).map (fun f => f.apply args)

/-- `makeMethod` instrumented with an invocation trace: the second component
lists the argument lists passed to an implementation.  The source invokes an
implementation exactly when `findRegistered` succeeds, and then with the
whole argument list of the call. -/
def makeMethodT {V : Type} (registrations : RegList V) (args : List V) :
    Except JsError V × List (List V) :=
  match findRegistered registrations args with
  | .ok f => (.ok (f.apply args), [args])
  | .error e => (.error e, [])

/-- The declared parameter count of the first registered implementation of a
registration list (the arity the specification says a curried multimethod
would await).  This definition follows the claim's words; `makeMethod`
itself never consults it. -/
def declaredArityOfFirstImpl {V : Type} : RegList V → Option Nat
  | Option.some r :: _ => Option.some r.f.length
  | _ => Option.none

/-! ## JavaScript objects as assignment lists -/

/-- Property lookup on an object: the value of the entry carrying the key
(objects built by the library keep at most one entry per key). -/
def jsGet {α : Type} (o : List (String × α)) (k : String) : Option α :=
  (o.find? (fun p => p.1 == k)).map (fun p => p.2)

/-- One JavaScript assignment `o[k] = v`: overwrite the entry in place when
the key exists, append a fresh entry otherwise. -/
def setKey {α : Type} (o : List (String × α)) (k : String) (v : α) :
    List (String × α) :=
  if o.any (fun p => p.1 == k) then
    o.map (fun p => if p.1 == k then (k, v) else p)
  else
    o ++ [(k, v)]

/-- Build an object by running a list of assignments on a fresh `{}`. -/
def objFromOps {α : Type} (ops : List (String × α)) : List (String × α) :=
  ops.foldl (fun o p => setKey o p.1 p.2) []

/-- bilby.js `extend(a, b)` (lines 532-544): copy `a`'s entries into a fresh
object, then `b`'s, so `b` wins on shared keys. -/
def extend {α : Type} (a b : List (String × α)) : List (String × α) :=
  objFromOps (a ++ b)

/-- bilby.js `singleton(k, v)` (lines 518-522): the one-entry object. -/
def singleton {α : Type} (k : String) (v : α) : List (String × α) :=
  setKey [] k v

/-! ## The environment -/

/-- The state an `environment(methods, properties)` value closes over. -/
structure Env (V : Type) where
  methods : List (String × RegList V)
  properties : List (String × V)

/-- The member names the constructor installs before copying `methods` and
`properties` onto `this` (bilby.js lines 188-222). -/
def builtinNames : List String := ["method", "property", "envConcat", "envAppend"]

/-- The constructor's copy loop (bilby.js lines 224-232): assign each key in
turn, throwing when the name is already present on `this`.  `taken` is the
set of names already installed; `kind` is the word used in the message. -/
def checkKeys (kind : String) : List String → List String → Except JsError (List String)
  | taken, [] => .ok taken
  | taken, k :: rest =>
      if taken.contains k then
        .error (.thrown (kind ++ " " ++ k ++ " already in environment."))
      else
        checkKeys kind (taken ++ [k]) rest

/-- `environment(methods, properties)` (bilby.js lines 179-233): install the
builtins, then every method (throwing on a name collision), then every
property (likewise). -/
def mkEnvironment {V : Type} (methods : List (String × RegList V))
    (properties : List (String × V)) : Except JsError (Env V) := do
  let t1 ← checkKeys "Method" builtinNames (methods.map (fun p => p.1))
  let _ ← checkKeys "Property" t1 (properties.map (fun p => p.1))
  .ok ⟨methods, properties⟩

/-- `environment.method(name, predicate, f)` (bilby.js lines 188-194):
append the registration to `name`'s list (or start a fresh list) and build a
new environment over the extended method map and the old properties. -/
def Env.method {V : Type} (e : Env V) (name : String) (predicate : List V → Bool)
    (f : JsFun V) : Except JsError (Env V) :=
  mkEnvironment
    (extend e.methods
      (singleton name ((jsGet e.methods name).getD [] ++ [Option.some ⟨predicate, f⟩])))
    e.properties

/-- `environment.property(name, value)` (bilby.js lines 196-199). -/
def Env.property {V : Type} (e : Env V) (name : String) (value : V) :
    Except JsError (Env V) :=
  mkEnvironment e.methods (extend e.properties (singleton name value))

/-- `methods[i].concat(extraMethods[i])`: ordinary concatenation when the
extra side has the key, and an appended `undefined` slot when it does not
(JavaScript `concat` appends a lone `undefined` argument as an element). -/
def concatRegs {V : Type} (a : RegList V) : Option (RegList V) → RegList V
  | Option.some l => a ++ l
  | Option.none => a ++ [Option.none]

/-- `environment.envConcat(extraMethods, extraProperties)` (bilby.js lines
201-218): every base method name keeps its list with the extra side's list
concatenated after it; extra-only names are copied; properties are merged
right-biased by `extend`. -/
def Env.envConcat {V : Type} (e : Env V) (extraMethods : List (String × RegList V))
    (extraProperties : List (String × V)) : Except JsError (Env V) :=
  mkEnvironment
    ((e.methods.map (fun p => (p.1, concatRegs p.2 (jsGet extraMethods p.1)))) ++
      (extraMethods.filter (fun p => !(e.methods.any (fun q => q.1 == p.1)))))
    (extend e.properties extraProperties)

/-- `environment.envAppend(e)` (bilby.js lines 220-222): ask `e` to
`envConcat` the receiver's methods and properties. -/
def Env.envAppend {V : Type} (receiver : Env V) (e : Env V) : Except JsError (Env V) :=
  e.envConcat receiver.methods receiver.properties

/-- Calling `name` on an environment: a method name resolves to
`makeMethod(registrations)`.  Any other name resolves to a property value or
to `undefined`; property values are plain data in this embedding, so calling
either raises the host TypeError, just as calling `undefined` does in
JavaScript. -/
def Env.call {V : Type} (e : Env V) (name : String) (args : List V) :
    Except JsError V :=
  match jsGet e.methods name with
  | Option.some regs => makeMethod regs args
  | Option.none => .error .hostTypeError

/-! ## Tagged records and tagged sums -/

/-- bilby.js `tagged(name, fields)` (lines 408-426): a constructor that
checks the argument count against the field count (throwing a TypeError on
mismatch) and assigns `this[fields[i]] = arguments[i]` in order. -/
def tagged {V : Type} (fields : List String) (args : List V) :
    Except JsError (List (String × V)) :=
  if args.length != fields.length then
    .error (.typeErrorThrown
      ("Expected " ++ toString fields.length ++ " arguments, got " ++
        toString args.length))
  else
    .ok (objFromOps (fields.zip args))

/-- bilby.js `makeCata` (lines 452-468), instrumented with the dispatch-table
invocations it performs.  `constructors` maps each variant name to its field
names; `fields`/`field` are the variant the receiving value was built with;
`self` is the receiving record; `dispatches` is the table handed to `cata`.
The two eager checks run before any table entry: the first constructor name
absent from the table throws, then the first table key that is no
constructor throws; only then are the receiver's fields read back (a missing
property reads as `undefined`, modelled by `default`) and the variant's
entry invoked on them. -/
def cataT {V : Type} [Inhabited V] (constructors : List (String × List String))
    (fields : List String) (field : String) (self : List (String × V))
    (dispatches : List (String × (List V → V))) :
    Except JsError V × List (String × List V) :=
  match constructors.find? (fun p => (jsGet dispatches p.1).isNone) with
  | Option.some p =>
      (.error (.typeErrorThrown
        ("Constructors define " ++ p.1 ++ " but not supplied to cata")), [])
  | Option.none =>
  match dispatches.find? (fun p => (jsGet constructors p.1).isNone) with
  | Option.some p =>
      (.error (.typeErrorThrown
        ("Found extra constructor supplied to cata: " ++ p.1)), [])
  | Option.none =>
      let args := fields.map (fun fn => (jsGet self fn).getD default)
      match jsGet dispatches field with
      | Option.some h => (.ok (h args), [(field, args)])
      | Option.none => (.error .hostTypeError, [])

/-! ## The shrink rules (bilby.js lines 1097-1144) -/

/-- One halving step of the numeric shrink loop: `x = x / 2` followed by
`Math.ceil` for negative `x` and `Math.floor` otherwise, which on integers
is division truncated toward zero. -/
def halve (x : Int) : Int :=
  if x < 0 then -(((-x).toNat / 2 : Nat) : Int) else ((x.toNat / 2 : Nat) : Int)

/-- The `while(x)` loop of the numeric shrink rule (bilby.js lines
1102-1117), driven by a structural fuel so it evaluates: halve `x`, and
while the result is non-zero push `n - x` and continue.  The magnitude of
`x` strictly decreases at every halving, so `x.natAbs` steps of fuel always
suffice. -/
def shrinkNumLoop (n : Int) : Nat → Int → List Int
  | 0, _ => []
  | fuel + 1, x =>
    if x = 0 then []
    else
      let x2 := halve x
      if x2 = 0 then [] else (n - x2) :: shrinkNumLoop n fuel x2

/-- The numeric shrink loop started on `x` with enough fuel to finish. -/
def shrinkNumAux (n : Int) (x : Int) : List Int :=
  shrinkNumLoop n x.natAbs x

/-- The numeric shrink rule: `[0]`, then `-n` for negative input, then the
halving loop's candidates. -/
def shrinkNum (n : Int) : List Int :=
  ([0] ++ if n < 0 then [-n] else []) ++ shrinkNumAux n n

/-- The `while(x)` loop of the string shrink rule (bilby.js lines
1119-1131), driven by a structural fuel: halve the count `x` and push
`s.substring(0, s.length - x)` while it stays non-zero.  Strings are
modelled as character lists; `x` strictly decreases at every halving, so
`x` steps of fuel always suffice. -/
def shrinkStrLoop (s : List Char) : Nat → Nat → List (List Char)
  | 0, _ => []
  | fuel + 1, x =>
    if x = 0 then []
    else
      let x2 := x / 2
      if x2 = 0 then [] else (s.take (s.length - x2)) :: shrinkStrLoop s fuel x2

/-- The string shrink loop started on `x` with enough fuel to finish. -/
def shrinkStrAux (s : List Char) (x : Nat) : List (List Char) :=
  shrinkStrLoop s x x

/-- The string shrink rule: the empty string, then ever-longer prefixes. -/
def shrinkStr (s : List Char) : List (List Char) :=
  [] :: shrinkStrAux s s.length

/-- The `while(x)` loop of the array shrink rule (bilby.js lines
1132-1144), driven by a structural fuel: halve the count `x` and push
`a.slice(a.length - x)` — the slice from index `a.length - x` to the end,
i.e. the trailing `x` elements — while `x` stays non-zero. -/
def shrinkArrLoop {α : Type} (a : List α) : Nat → Nat → List (List α)
  | 0, _ => []
  | fuel + 1, x =>
    if x = 0 then []
    else
      let x2 := x / 2
      if x2 = 0 then [] else (a.drop (a.length - x2)) :: shrinkArrLoop a fuel x2

/-- The array shrink loop started on `x` with enough fuel to finish. -/
def shrinkArrAux {α : Type} (a : List α) (x : Nat) : List (List α) :=
  shrinkArrLoop a x x

/-- The array shrink rule: the empty array, then ever-longer trailing
slices. -/
def shrinkArr {α : Type} (a : List α) : List (List α) :=
  [] :: shrinkArrAux a a.length

/-- The inner closure of the boolean shrink registration (bilby.js lines
1097-1101): `return b ? [False] : []`.  `False` is an unbound identifier in
the source, so evaluating the array literal on a `true` argument raises a
ReferenceError; on `false` the empty list is returned. -/
def shrinkBoolInner (b : Bool) : Except JsError (List Bool) :=
  if b then .error .referenceError else .ok []

/-- The registered boolean shrink implementation: `function() { return
function(b) { ... }; }` ignores its arguments and returns the inner closure
itself — a function, not a candidate list. -/
def shrinkBoolImpl (_args : List Bool) : Bool → Except JsError (List Bool) :=
  fun b => shrinkBoolInner b

/-! ## zip, fold and the array `equal` registration -/

/-- bilby.js `zip(a, b)` (lines 498-507): pair the values up to the shorter
length. -/
def zipJs {α β : Type} : List α → List β → List (α × β)
  | x :: xs, y :: ys => (x, y) :: zipJs xs ys
  | _, _ => []

/-- The array `fold` registration (bilby.js lines 983-989): a left fold. -/
def foldJs {α β : Type} : List α → β → (β → α → β) → β
  | [], b, _ => b
  | x :: xs, b, c => foldJs xs (c b x) c

/-- The array `equal` registration (bilby.js lines 976-981): fold `&&` of
the element-level `equal` over the zipped pairs.  The element-level
dispatch recursion is the parameter `eq`. -/
def equalArr {α : Type} (eq : α → α → Bool) (a b : List α) : Bool :=
  foldJs (zipJs a b) true (fun acc t => acc && eq t.1 t.2)

/-! ## Validation -/

/-- `Validation = taggedSum({success: ['value'], failure: ['errors']})`
(bilby.js lines 1470-1473). -/
inductive Validation (E A : Type) : Type
  | success (value : A)
  | failure (errors : E)
  deriving DecidableEq

/-- `Validation.success.prototype.map` / `Validation.failure.prototype.map`
(bilby.js lines 1475-1485): map the success value, return `this` on
failure. -/
def vmap {E A B : Type} (v : Validation E A) (f : A → B) : Validation E B :=
  match v with
  | .success x => .success (f x)
  | .failure e => .failure e

/-- `ap` on Validation (bilby.js lines 1478-1496): a success applies its
function over the argument by `v.map(this.value)`; a failure `cata`s the
argument, returning itself against a success and combining both error
payloads with `append(a.errors, errors)` — the receiver's errors first —
against another failure. -/
def vap {E A B : Type} (vf : Validation E (A → B)) (v : Validation E A)
    (append : E → E → E) : Validation E B :=
  match vf with
  | .success f => vmap v f
  | .failure e1 =>
      match v with
      | .success _ => .failure e1
      | .failure e2 => .failure (append e1 e2)

/-- The array `append` registration (bilby.js lines 1024-1026):
concatenation; it is the semigroup the environment hands to `vf.ap(v,
this.append)` when the error payloads are arrays. -/
def appendArr {α : Type} (a b : List α) : List α := a ++ b

/-- The environment's `ap` registration for Validation values over
array-valued errors (bilby.js lines 1513-1515): `vf.ap(v, this.append)`. -/
def apValidation {α A B : Type} (vf : Validation (List α) (A → B))
    (v : Validation (List α) A) : Validation (List α) B :=
  vap vf v appendArr

/-! ## Store, lens and objectLens -/

/-- bilby.js `compose(f, g)` (lines 379-383). -/
def compose {α β γ : Type} (f : β → γ) (g : α → β) : α → γ :=
  fun x => f (g x)

/-- bilby.js `store(setter, getter)` (lines 1530-1540), over a whole of type
`W` and a part of type `V`. -/
structure Store (V W : Type) where
  setter : V → W
  getter : V

/-- `store.map(f)`: post-compose the setter, keep the getter. -/
def Store.map {V W X : Type} (s : Store V W) (f : W → X) : Store V X :=
  ⟨compose f s.setter, s.getter⟩

/-- bilby.js `lens(f)` (lines 1557-1577): a function from a whole to a
`store` over it. -/
structure Lens (W V : Type) where
  run : W → Store V W

/-- bilby.js `objectLens(k)` (lines 1590-1599): the getter reads `o[k]`
(`undefined`, i.e. `default`, when absent) and the setter rebinds `k` in a
copy of `o` via `extend(o, singleton(k, v))`. -/
def objectLens {V : Type} [Inhabited V] (k : String) :
    Lens (List (String × V)) V :=
  ⟨fun o => ⟨fun v => extend o (singleton k v), (jsGet o k).getD default⟩⟩

/-! ## Option -/

/-- The Option data type: `some(x)` (bilby.js lines 1184-1216) and the single
shared `none` object (lines 1223-1251). -/
inductive Opt (α : Type) : Type
  | some (x : α)
  | none
  deriving DecidableEq

/-- `map` with its call trace: `some.map(f)` builds `some(f(x))` having
called `f` on `x`; `none.map` is `function() { return this; }` — it returns
the receiver itself and calls nothing. -/
def Opt.mapT {α : Type} (o : Opt α) (f : α → α) : Opt α × List α :=
  match o with
  | .some x => (.some (f x), [x])
  | .none => (o, [])

/-- `flatMap` with its call trace: `some.flatMap(f)` returns `f(x)`;
`none.flatMap` returns the receiver and calls nothing. -/
def Opt.flatMapT {α : Type} (o : Opt α) (f : α → Opt α) : Opt α × List α :=
  match o with
  | .some x => (f x, [x])
  | .none => (o, [])

/-- Plain `map`, used by the `some` branches of `ap` and `append`. -/
def Opt.map {α : Type} (f : α → α) : Opt α → Opt α
  | .some x => .some (f x)
  | .none => .none

/-- `ap`: `some.ap(s)` is `s.map(x)` with the payload used as a function
(`app` interprets a payload as a function, JavaScript being untyped);
`none.ap` returns the receiver. -/
def Opt.ap {α : Type} (app : α → α → α) (o : Opt α) (s : Opt α) : Opt α :=
  match o with
  | .some x => Opt.map (app x) s
  | .none => o

/-- `append` with the trace of `plus` invocations: `some.append(s, plus)`
maps `y ↦ plus(x, y)` over `s`; `none.append` returns the receiver and
calls nothing. -/
def Opt.appendT {α : Type} (o : Opt α) (s : Opt α) (plus : α → α → α) :
    Opt α × List (α × α) :=
  match o with
  | .some x =>
      (Opt.map (fun y => plus x y) s,
        match s with
        | .some y => [(x, y)]
        | .none => [])
  | .none => (o, [])

/-! ## Formalisations of claimed properties that the code refutes -/

/-- The claim that the no-implementation error of a multimethod call
carries the argument count: some reader could recover the number of
arguments from the error message alone.  `findRegistered` in fact throws a
fixed message, so no such reader exists. -/
def NoImplErrorCarriesArgCount : Prop :=
  ∃ argcOf : String → Nat,
    ∀ (regs : List (Registration Nat)) (args : List Nat) (msg : String),
      makeMethod (regs.map Option.some) args = .error (.thrown msg) →
      argcOf msg = args.length

/-- The claim that exposed multimethods are curried: a call with fewer
arguments than the declared parameter count of the first registered
implementation would return a partial application and therefore invoke no
implementation.  `makeMethod` in fact dispatches immediately on whatever
arguments it receives. -/
def ExposedMethodsCurried : Prop :=
  ∀ (regs : RegList Nat) (args : List Nat) (a : Nat),
    declaredArityOfFirstImpl regs = Option.some a →
    args.length < a →
    (makeMethodT regs args).2 = []

/-! ## Lemmas about the object model -/

theorem jsGet_nil {α : Type} (k : String) : jsGet ([] : List (String × α)) k = Option.none := rfl

theorem jsGet_cons {α : Type} (p : String × α) (o : List (String × α)) (k : String) :
    jsGet (p :: o) k = if p.1 = k then Option.some p.2 else jsGet o k := by
  unfold jsGet
  rw [List.find?_cons]
  by_cases h : p.1 = k
  · have hb : (p.1 == k) = true := beq_iff_eq.mpr h
    simp [hb, h]
  · have hb : (p.1 == k) = false := beq_false_of_ne h
    simp [hb, h]

theorem jsGet_append {α : Type} (a b : List (String × α)) (k : String) :
    jsGet (a ++ b) k =
      match jsGet a k with
      | Option.some v => Option.some v
      | Option.none => jsGet b k := by
  induction a with
  | nil => simp [jsGet_nil]
  | cons p rest ih =>
    rw [List.cons_append, jsGet_cons, jsGet_cons]
    by_cases h : p.1 = k
    · simp [h]
    · simp [h, ih]

theorem jsGet_eq_none_iff {α : Type} (o : List (String × α)) (k : String) :
    jsGet o k = Option.none ↔ ∀ p ∈ o, p.1 ≠ k := by
  unfold jsGet
  constructor
  · intro h p hp hk
    cases hfind : o.find? (fun p => p.1 == k) with
    | none =>
      have := List.find?_eq_none.mp hfind p hp
      exact this (beq_iff_eq.mpr hk)
    | some q => rw [hfind] at h; simp at h
  · intro h
    have : o.find? (fun p => p.1 == k) = Option.none :=
      List.find?_eq_none.mpr (fun p hp hb => h p hp (beq_iff_eq.mp hb))
    rw [this]; rfl

theorem jsGet_map_replace_ne {α : Type} (o : List (String × α)) (k : String) (v : α)
    (k2 : String) (hne : k2 ≠ k) :
    jsGet (o.map (fun p => if p.1 == k then (k, v) else p)) k2 = jsGet o k2 := by
  induction o with
  | nil => rfl
  | cons p rest ih =>
    rw [List.map_cons, jsGet_cons, jsGet_cons]
    by_cases h : p.1 = k
    · rw [beq_iff_eq.mpr h, if_pos rfl]
      have h1 : (k, v).1 ≠ k2 := fun hc => hne hc.symm
      have h2 : p.1 ≠ k2 := fun hc => hne (by rw [← hc, h])
      rw [if_neg h1, if_neg h2, ih]
    · rw [beq_false_of_ne h]
      simp only [Bool.false_eq_true, if_false]
      by_cases h2 : p.1 = k2
      · rw [if_pos h2, if_pos h2]
      · rw [if_neg h2, if_neg h2, ih]

theorem jsGet_map_replace_self {α : Type} (o : List (String × α)) (k : String) (v : α)
    (h : o.any (fun p => p.1 == k) = true) :
    jsGet (o.map (fun p => if p.1 == k then (k, v) else p)) k = Option.some v := by
  induction o with
  | nil => simp at h
  | cons p rest ih =>
    rw [List.map_cons, jsGet_cons]
    by_cases hp : p.1 = k
    · rw [beq_iff_eq.mpr hp, if_pos rfl, if_pos rfl]
    · rw [beq_false_of_ne hp]
      simp only [Bool.false_eq_true, if_false, if_neg hp]
      rw [List.any_cons] at h
      rcases Bool.or_eq_true_iff.mp h with h1 | h2
      · exact absurd (beq_iff_eq.mp h1) hp
      · exact ih h2

theorem jsGet_setKey {α : Type} (o : List (String × α)) (k : String) (v : α)
    (k2 : String) :
    jsGet (setKey o k v) k2 = if k2 = k then Option.some v else jsGet o k2 := by
  unfold setKey
  by_cases ha : o.any (fun p => p.1 == k) = true
  · rw [if_pos ha]
    by_cases hk : k2 = k
    · rw [if_pos hk, hk, jsGet_map_replace_self o k v ha]
    · rw [if_neg hk, jsGet_map_replace_ne o k v k2 hk]
  · rw [if_neg ha, jsGet_append]
    have hnone : jsGet o k = Option.none := by
      rw [jsGet_eq_none_iff]
      intro p hp hk
      exact ha (List.any_eq_true.mpr ⟨p, hp, beq_iff_eq.mpr hk⟩)
    by_cases hk : k2 = k
    · rw [if_pos hk, hk, hnone]
      simp [jsGet_cons]
    · rw [if_neg hk]
      cases hg : jsGet o k2 with
      | some w => simp
      | none => simp [jsGet_cons, jsGet_nil, Ne.symm hk]

theorem jsGet_foldl_setKey {α : Type} (ops : List (String × α)) :
    ∀ (o : List (String × α)) (k : String),
      jsGet (ops.foldl (fun o p => setKey o p.1 p.2) o) k =
        match ops.reverse.find? (fun p => p.1 == k) with
        | Option.some p => Option.some p.2
        | Option.none => jsGet o k := by
  induction ops with
  | nil => intro o k; rfl
  | cons p rest ih =>
    intro o k
    rw [List.foldl_cons, ih, List.reverse_cons, List.find?_append]
    cases hr : rest.reverse.find? (fun q => q.1 == k) with
    | some q => simp [Option.or]
    | none =>
      simp only [Option.or, jsGet_setKey, List.find?_cons, List.find?_nil]
      by_cases hk : p.1 = k
      · rw [beq_iff_eq.mpr hk]
        simp [hk]
      · rw [beq_false_of_ne hk]
        have : k ≠ p.1 := fun hc => hk hc.symm
        simp [this]

theorem jsGet_objFromOps {α : Type} (ops : List (String × α)) (k : String) :
    jsGet (objFromOps ops) k =
      match ops.reverse.find? (fun p => p.1 == k) with
      | Option.some p => Option.some p.2
      | Option.none => Option.none := by
  unfold objFromOps
  rw [jsGet_foldl_setKey]
  cases hr : ops.reverse.find? (fun p => p.1 == k) <;> simp [jsGet_nil]

theorem find?_reverse_of_nodup_keys {α : Type} (l : List (String × α))
    (h : (l.map Prod.fst).Nodup) (k : String) :
    l.reverse.find? (fun p => p.1 == k) = l.find? (fun p => p.1 == k) := by
  induction l with
  | nil => rfl
  | cons p rest ih =>
    rw [List.map_cons, List.nodup_cons] at h
    rw [List.reverse_cons, List.find?_append, ih h.2]
    simp only [List.find?_cons, List.find?_nil]
    by_cases hp : p.1 = k
    · have hnone : rest.find? (fun q => q.1 == k) = Option.none := by
        rw [List.find?_eq_none]
        intro q hq hb
        exact h.1 (by
          rw [List.mem_map]
          exact ⟨q, hq, by rw [beq_iff_eq.mp hb, hp]⟩)
      rw [hnone, beq_iff_eq.mpr hp]
      rfl
    · rw [beq_false_of_ne hp]
      cases hr : rest.find? (fun q => q.1 == k) <;> simp [Option.or]

theorem jsGet_extend {α : Type} (a b : List (String × α))
    (ha : (a.map Prod.fst).Nodup) (hb : (b.map Prod.fst).Nodup) (k : String) :
    jsGet (extend a b) k =
      match jsGet b k with
      | Option.some v => Option.some v
      | Option.none => jsGet a k := by
  unfold extend
  rw [jsGet_objFromOps, List.reverse_append, List.find?_append,
    find?_reverse_of_nodup_keys a ha, find?_reverse_of_nodup_keys b hb]
  unfold jsGet
  cases hfb : b.find? (fun p => p.1 == k) with
  | some q => simp [Option.or]
  | none =>
    cases hfa : a.find? (fun p => p.1 == k) <;> simp [Option.or]

theorem setKey_fresh {α : Type} (o : List (String × α)) (k : String) (v : α)
    (h : jsGet o k = Option.none) : setKey o k v = o ++ [(k, v)] := by
  unfold setKey
  rw [if_neg]
  intro hany
  rcases List.any_eq_true.mp hany with ⟨p, hp, hb⟩
  exact (jsGet_eq_none_iff o k).mp h p hp (beq_iff_eq.mp hb)

theorem foldl_setKey_fresh {α : Type} (l : List (String × α)) :
    ∀ (acc : List (String × α)), ((acc ++ l).map Prod.fst).Nodup →
      l.foldl (fun o p => setKey o p.1 p.2) acc = acc ++ l := by
  induction l with
  | nil => intro acc _; simp
  | cons p rest ih =>
    intro acc hnd
    rw [List.foldl_cons]
    have hfresh : jsGet acc p.1 = Option.none := by
      rw [jsGet_eq_none_iff]
      intro q hq hqk
      have h1 : q.1 ∈ acc.map Prod.fst := List.mem_map_of_mem Prod.fst hq
      have h2 : q.1 ∈ (p :: rest).map Prod.fst := by
        rw [hqk, List.map_cons]
        exact List.mem_cons_self _ _
      rw [List.map_append] at hnd
      exact List.disjoint_of_nodup_append hnd h1 h2
    rw [setKey_fresh acc p.1 p.2 hfresh]
    have : acc ++ [(p.1, p.2)] = acc ++ [p] := by rfl
    rw [this]
    have hnd2 : (((acc ++ [p]) ++ rest).map Prod.fst).Nodup := by
      rw [List.append_assoc, List.singleton_append]
      exact hnd
    rw [ih (acc ++ [p]) hnd2, List.append_assoc, List.singleton_append]

theorem objFromOps_self {α : Type} (l : List (String × α))
    (h : (l.map Prod.fst).Nodup) : objFromOps l = l := by
  unfold objFromOps
  have := foldl_setKey_fresh l [] (by simpa using h)
  simpa using this

theorem entry_unique_of_nodup_keys {α : Type} (o : List (String × α))
    (h : (o.map Prod.fst).Nodup) {p q : String × α} (hp : p ∈ o) (hq : q ∈ o)
    (hk : p.1 = q.1) : p = q :=
  List.inj_on_of_nodup_map h hp hq hk

theorem jsGet_some_mem {α : Type} (o : List (String × α)) (k : String) (v : α)
    (h : jsGet o k = Option.some v) : (k, v) ∈ o ∧ ∃ q ∈ o, q.1 = k ∧ q.2 = v := by
  unfold jsGet at h
  cases hf : o.find? (fun p => p.1 == k) with
  | none => rw [hf] at h; simp at h
  | some q =>
    rw [hf] at h
    have hqk0 := List.find?_some hf
    have hqk : q.1 = k := beq_iff_eq.mp hqk0
    have hqm : q ∈ o := List.mem_of_find?_eq_some hf
    have hqv : q.2 = v := by simpa using h
    have hq : q = (k, v) := Prod.ext hqk hqv
    exact ⟨hq ▸ hqm, q, hqm, hqk, hqv⟩

theorem setKey_self {α : Type} (o : List (String × α)) (k : String) (w : α)
    (hnd : (o.map Prod.fst).Nodup) (hget : jsGet o k = Option.some w) :
    setKey o k w = o := by
  have hmem := (jsGet_some_mem o k w hget).1
  unfold setKey
  have hany : (o.any fun p => p.1 == k) = true := by
    refine List.any_eq_true.mpr ⟨(k, w), hmem, ?_⟩
    exact beq_iff_eq.mpr rfl
  rw [if_pos hany]
  have hcongr : ∀ p ∈ o, (if p.1 == k then (k, w) else p) = p := by
    intro p hp
    by_cases hpk : p.1 = k
    · rw [beq_iff_eq.mpr hpk, if_pos rfl]
      exact entry_unique_of_nodup_keys o hnd hmem hp hpk.symm
    · rw [beq_false_of_ne hpk]
      simp
  rw [List.map_congr_left hcongr]
  exact List.map_id' o

theorem singleton_eq {α : Type} (k : String) (v : α) : singleton k v = [(k, v)] := rfl

/-! ## Lemmas about the environment constructor -/

theorem checkKeys_ok (kind : String) (keys : List String) :
    ∀ (taken : List String), (∀ k ∈ keys, k ∉ taken) → keys.Nodup →
      checkKeys kind taken keys = .ok (taken ++ keys) := by
  induction keys with
  | nil => intro taken _ _; simp [checkKeys]
  | cons k rest ih =>
    intro taken hfresh hnd
    rw [List.nodup_cons] at hnd
    unfold checkKeys
    rw [if_neg]
    · rw [ih (taken ++ [k])
        (fun k2 hk2 => by
          intro hmem
          rcases List.mem_append.mp hmem with h1 | h2
          · exact hfresh k2 (List.mem_cons_of_mem k hk2) h1
          · rw [List.mem_singleton] at h2
            exact hnd.1 (h2 ▸ hk2))
        hnd.2]
      rw [List.append_assoc, List.singleton_append]
    · intro hc
      exact hfresh k (List.mem_cons_self k rest) (List.elem_iff.mp hc)

theorem mkEnvironment_ok_inv {V : Type} (ms : List (String × RegList V))
    (ps : List (String × V)) (e : Env V) (h : mkEnvironment ms ps = .ok e) :
    e = ⟨ms, ps⟩ := by
  unfold mkEnvironment at h
  cases h1 : checkKeys "Method" builtinNames (ms.map (fun p => p.1)) with
  | error er =>
    rw [h1] at h
    simp only [Bind.bind, Except.bind] at h
    exact absurd h (by simp)
  | ok t1 =>
    rw [h1] at h
    simp only [Bind.bind, Except.bind] at h
    cases h2 : checkKeys "Property" t1 (ps.map (fun p => p.1)) with
    | error er =>
      rw [h2] at h
      exact absurd h (by simp)
    | ok t2 =>
      rw [h2] at h
      simp only at h
      injection h with h
      exact h.symm

theorem jsGet_map_entry {α β : Type} (l : List (String × α)) (g : String → α → β)
    (k : String) :
    jsGet (l.map (fun p => (p.1, g p.1 p.2))) k = (jsGet l k).map (g k) := by
  induction l with
  | nil => rfl
  | cons p rest ih =>
    rw [List.map_cons, jsGet_cons, jsGet_cons]
    by_cases h : p.1 = k
    · simp only [h, if_pos rfl]
      rw [← h]
      rfl
    · simp only [h, if_neg h, ih]
      simp

/-! ## C1: dispatch order and the no-implementation error -/

/-- C1 (amended): a multimethod call scans the registration list in
insertion (append) order and invokes the implementation of the first
registration whose predicate returns true, applied to the full argument
list; when no registration's predicate matches, the call fails with the
fixed error "Method not implemented for this input" — an error that does
not mention the method name or the argument count. -/
theorem dispatch_scans_in_order {V : Type} (regs : List (Registration V)) (args : List V) :
    (∀ (i : Nat) (hi : i < regs.length),
        (regs.get ⟨i, hi⟩).predicate args = true →
        (∀ (j : Nat) (hj : j < i),
          (regs.get ⟨j, Nat.lt_trans hj hi⟩).predicate args = false) →
        makeMethod (regs.map Option.some) args = .ok ((regs.get ⟨i, hi⟩).f.apply args))
    ∧ ((∀ r ∈ regs, r.predicate args = false) →
        makeMethod (regs.map Option.some) args =
          .error (.thrown "Method not implemented for this input")) := by
  constructor
  · intro i hi hpred hbefore
    induction regs generalizing i with
    | nil => exact absurd hi (by simp)
    | cons r rest ih =>
      cases i with
      | zero =>
        simp only [List.get] at hpred
        simp [makeMethod, findRegistered, hpred, Except.map]
      | succ n =>
        have h0 : r.predicate args = false := by
          have := hbefore 0 (Nat.succ_pos n)
          simpa using this
        have hn : n < rest.length := Nat.lt_of_succ_lt_succ hi
        have hpred2 : (rest.get ⟨n, hn⟩).predicate args = true := by
          simpa using hpred
        have hbefore2 : ∀ (j : Nat) (hj : j < n),
            (rest.get ⟨j, Nat.lt_trans hj hn⟩).predicate args = false := by
          intro j hj
          have := hbefore (j + 1) (Nat.succ_lt_succ hj)
          simpa using this
        have := ih n hn hpred2 hbefore2
        simp only [List.map_cons]
        simp only [makeMethod, findRegistered, h0] at this ⊢
        simpa using this
  · intro hall
    induction regs with
    | nil => rfl
    | cons r rest ih =>
      have h0 : r.predicate args = false := hall r (List.mem_cons_self r rest)
      have ih2 := ih (fun q hq => hall q (List.mem_cons_of_mem r hq))
      simp only [List.map_cons]
      simp only [makeMethod, findRegistered, h0] at ih2 ⊢
      simpa using ih2

/-- Witness for `dispatch_scans_in_order`: with two registrations the second
(matching) one is invoked once the first (non-matching) one is skipped, and
with a single never-matching registration the call fails with the fixed
message. -/
theorem dispatch_scans_in_order_witness :
    makeMethod (([⟨fun l => decide (l.length = 2), ⟨2, fun l => l.length⟩⟩,
        ⟨fun _ => true, ⟨1, fun _ => 7⟩⟩] : List (Registration Nat)).map Option.some) [5] =
      .ok 7
    ∧ makeMethod (([⟨fun _ => false, ⟨0, fun _ => 0⟩⟩] : List (Registration Nat)).map Option.some) [] =
      .error (.thrown "Method not implemented for this input") := by
  constructor
  · exact (dispatch_scans_in_order
      [⟨fun l => decide (l.length = 2), ⟨2, fun l => l.length⟩⟩,
        ⟨fun _ => true, ⟨1, fun _ => 7⟩⟩] [5]).1 1 (by decide) (by decide)
      (fun j hj => by interval_cases j; rfl)
  · exact (dispatch_scans_in_order [⟨fun _ => false, ⟨0, fun _ => 0⟩⟩] []).2
      (fun r hr => by
        rcases List.mem_singleton.mp hr with rfl
        rfl)

/-- Counterexample to C1 as stated: the no-match error does not carry the
argument count — calls with one argument and with two arguments produce the
identical error value, so no reading of the error can recover the count
(and a fortiori the error, whose construction never sees the method name,
cannot carry the name either). -/
theorem noimpl_error_carries_no_call_info : ¬ NoImplErrorCarriesArgCount := by
  rintro ⟨argcOf, h⟩
  have h1 := h [] [0] "Method not implemented for this input" rfl
  have h2 := h [] [0, 0] "Method not implemented for this input" rfl
  rw [h1] at h2
  simp at h2

/-! ## C4: exposed multimethods are not curried -/

/-- Counterexample to C4 as stated: a multimethod whose first registered
implementation declares two parameters, called with a single argument,
nonetheless invokes that implementation immediately on the one-element
argument list (the trace is `[[5]]`, not empty), so no partial application
awaiting the remaining argument is ever returned. -/
theorem exposed_methods_not_curried : ¬ ExposedMethodsCurried := by
  intro h
  have := h [Option.some ⟨fun _ => true, ⟨2, fun l => l.length⟩⟩] [5] 2 rfl (by decide)
  simp [makeMethodT, findRegistered] at this

/-- C4 (amended): exposed multimethods are not curried.  A call dispatches
immediately on exactly the arguments given, even when there are fewer of
them than the declared parameter count of the first registered
implementation: whenever the scan finds a matching registration, its
implementation is invoked right away on the short argument list. -/
theorem exposed_method_dispatches_immediately {V : Type} (regs : RegList V)
    (args : List V) (a : Nat) (g : JsFun V)
    (_harity : declaredArityOfFirstImpl regs = Option.some a)
    (_hshort : args.length < a)
    (hfound : findRegistered regs args = .ok g) :
    makeMethodT regs args = (.ok (g.apply args), [args]) := by
  unfold makeMethodT
  rw [hfound]

/-- Witness for `exposed_method_dispatches_immediately` at a concrete
under-applied call. -/
theorem exposed_method_dispatches_immediately_witness :
    makeMethodT [Option.some (⟨fun _ => true, ⟨2, fun l => l.length⟩⟩ : Registration Nat)] [5] =
      (.ok 1, [[5]]) := by
  exact exposed_method_dispatches_immediately
    [Option.some ⟨fun _ => true, ⟨2, fun l => l.length⟩⟩] [5] 2
    ⟨2, fun l => l.length⟩ rfl (by decide) rfl

/-! ## C2: registering a method extends without mutating -/

/-- C2 (amended): on a well-formed environment in which `n` is neither a
method, a property nor a builtin member, `method(n, p, f)` returns a new
environment whose method map is the old one with `(p, f)` registered under
`n`; a call to `n` whose arguments satisfy `p` on the new environment
invokes `f`; every other name resolves exactly as before and the old
environment's properties are untouched; and a call to `n` on the old
environment still fails — with the host TypeError of calling an absent
member, not with the no-implementation error. -/
theorem method_registration_frame {V : Type} (ms : List (String × RegList V))
    (ps : List (String × V)) (n : String) (p : List V → Bool) (f : JsFun V)
    (args : List V)
    (hmsN : (ms.map Prod.fst).Nodup)
    (hmsB : ∀ k ∈ ms.map Prod.fst, k ∉ builtinNames)
    (hpsN : (ps.map Prod.fst).Nodup)
    (hpsB : ∀ k ∈ ps.map Prod.fst, k ∉ builtinNames)
    (hpsM : ∀ k ∈ ps.map Prod.fst, k ∉ ms.map Prod.fst)
    (hn1 : jsGet ms n = Option.none)
    (hn2 : jsGet ps n = Option.none)
    (hn3 : n ∉ builtinNames) :
    Env.method ⟨ms, ps⟩ n p f = .ok ⟨ms ++ [(n, [Option.some ⟨p, f⟩])], ps⟩
    ∧ (p args = true →
        Env.call ⟨ms ++ [(n, [Option.some ⟨p, f⟩])], ps⟩ n args = .ok (f.apply args))
    ∧ (∀ m, m ≠ n → jsGet (ms ++ [(n, [Option.some ⟨p, f⟩])]) m = jsGet ms m)
    ∧ Env.call ⟨ms, ps⟩ n args = .error .hostTypeError := by
  have hnotin : n ∉ ms.map Prod.fst := by
    intro hmem
    rcases List.mem_map.mp hmem with ⟨q, hq, hq1⟩
    exact (jsGet_eq_none_iff ms n).mp hn1 q hq hq1
  have hnotinPs : n ∉ ps.map Prod.fst := by
    intro hmem
    rcases List.mem_map.mp hmem with ⟨q, hq, hq1⟩
    exact (jsGet_eq_none_iff ps n).mp hn2 q hq hq1
  have hkeys : ((ms ++ [(n, [Option.some (⟨p, f⟩ : Registration V)])]).map Prod.fst) =
      ms.map Prod.fst ++ [n] := by
    rw [List.map_append]
    rfl
  have hkeysN : ((ms ++ [(n, [Option.some (⟨p, f⟩ : Registration V)])]).map Prod.fst).Nodup := by
    rw [hkeys]
    rw [List.nodup_append]
    exact ⟨hmsN, List.nodup_singleton n, by
      intro a ha hb
      rw [List.mem_singleton] at hb
      exact hnotin (hb ▸ ha)⟩
  have hext : extend ms (singleton n ((jsGet ms n).getD [] ++ [Option.some (⟨p, f⟩ : Registration V)])) =
      ms ++ [(n, [Option.some ⟨p, f⟩])] := by
    rw [hn1]
    simp only [Option.getD, List.nil_append]
    rw [singleton_eq]
    unfold extend
    exact objFromOps_self _ hkeysN
  have hchk1 : checkKeys "Method" builtinNames (ms.map (fun q => q.1) ++ [n]) =
      .ok (builtinNames ++ (ms.map (fun q => q.1) ++ [n])) := by
    refine checkKeys_ok "Method" _ builtinNames ?_ ?_
    · intro k hk
      rcases List.mem_append.mp hk with h1 | h2
      · exact hmsB k h1
      · rw [List.mem_singleton] at h2
        exact h2 ▸ hn3
    · rw [List.nodup_append]
      refine ⟨hmsN, List.nodup_singleton n, ?_⟩
      intro a ha hb
      rw [List.mem_singleton] at hb
      exact hnotin (hb ▸ ha)
  have hchk2 : checkKeys "Property" (builtinNames ++ (ms.map (fun q => q.1) ++ [n]))
      (ps.map (fun q => q.1)) =
      .ok ((builtinNames ++ (ms.map (fun q => q.1) ++ [n])) ++ ps.map (fun q => q.1)) := by
    refine checkKeys_ok "Property" _ _ ?_ hpsN
    intro k hk hmem
    rcases List.mem_append.mp hmem with h1 | h2
    · exact hpsB k hk h1
    · rcases List.mem_append.mp h2 with h3 | h4
      · exact hpsM k hk h3
      · rw [List.mem_singleton] at h4
        exact hnotinPs (h4 ▸ hk)
  refine ⟨?_, ?_, ?_, ?_⟩
  · show mkEnvironment _ _ = _
    rw [hext]
    unfold mkEnvironment
    simp only [Bind.bind, Except.bind]
    simp [hchk1, hchk2]
  · intro hp
    unfold Env.call
    have : jsGet (ms ++ [(n, [Option.some (⟨p, f⟩ : Registration V)])]) n =
        Option.some [Option.some ⟨p, f⟩] := by
      rw [jsGet_append, hn1, jsGet_cons]
      simp
    rw [this]
    simp [makeMethod, findRegistered, hp, Except.map]
  · intro m hm
    rw [jsGet_append]
    cases hg : jsGet ms m with
    | some w => rfl
    | none =>
      rw [jsGet_cons]
      have hne : (n, [Option.some (⟨p, f⟩ : Registration V)]).1 ≠ m := fun hc => hm hc.symm
      rw [if_neg hne, jsGet_nil]
  · unfold Env.call
    rw [hn1]

/-- Witness for `method_registration_frame` on the empty environment. -/
theorem method_registration_frame_witness :
    Env.method (⟨[], []⟩ : Env Nat) "negate" (fun _ => true) ⟨1, fun _ => 3⟩ =
      .ok ⟨[("negate", [Option.some ⟨fun _ => true, ⟨1, fun _ => 3⟩⟩])], []⟩
    ∧ Env.call (⟨[("negate", [Option.some ⟨fun _ => true, ⟨1, fun _ => 3⟩⟩])], []⟩ : Env Nat)
        "negate" [5] = .ok 3
    ∧ Env.call (⟨[], []⟩ : Env Nat) "negate" [5] = .error .hostTypeError := by
  have h := method_registration_frame ([] : List (String × RegList Nat)) [] "negate"
    (fun _ => true) ⟨1, fun _ => 3⟩ [5]
    (by simp) (by simp) (by simp) (by simp) (by simp) rfl rfl (by decide)
  exact ⟨h.1, h.2.1 rfl, h.2.2.2⟩

/-- Counterexample to C2 as stated: a call to a name that was never
registered fails with the host TypeError of calling an absent member, not
with the NoImplementation error the claim describes. -/
theorem unregistered_call_not_noimpl_error :
    Env.call (⟨[], []⟩ : Env Nat) "negate" [0] ≠
      .error (.thrown "Method not implemented for this input") := by
  intro h
  rw [show Env.call (⟨[], []⟩ : Env Nat) "negate" [0] = Except.error JsError.hostTypeError
    from rfl] at h
  injection h with h2
  exact JsError.noConfusion h2

/-! ## C3: merge bias of envConcat / envAppend -/

/-- C3: for every successful `envConcat`, a method name defined on both
sides ends up with the base environment's registrations followed by the
extra side's (so the extra registrations are only tried after all of the
base's, by `dispatch_scans_in_order`); a property name defined on both
sides takes the extra side's value; and `envAppend(e)` is exactly
`e.envConcat` applied to the receiver's methods and properties. -/
theorem envConcat_bias {V : Type} (ms1 : List (String × RegList V))
    (ps1 : List (String × V)) (ms2 : List (String × RegList V))
    (ps2 : List (String × V)) (e : Env V)
    (hok : Env.envConcat ⟨ms1, ps1⟩ ms2 ps2 = .ok e)
    (hps1 : (ps1.map Prod.fst).Nodup) (hps2 : (ps2.map Prod.fst).Nodup) :
    (∀ name (l1 l2 : RegList V), jsGet ms1 name = Option.some l1 →
        jsGet ms2 name = Option.some l2 →
        jsGet e.methods name = Option.some (l1 ++ l2))
    ∧ (∀ name (v1 v2 : V), jsGet ps1 name = Option.some v1 →
        jsGet ps2 name = Option.some v2 →
        jsGet e.properties name = Option.some v2)
    ∧ (∀ (receiver e2 : Env V),
        Env.envAppend receiver e2 = Env.envConcat e2 receiver.methods receiver.properties) := by
  have he : e = ⟨(ms1.map (fun p => (p.1, concatRegs p.2 (jsGet ms2 p.1)))) ++
      (ms2.filter (fun p => !(ms1.any (fun q => q.1 == p.1)))),
      extend ps1 ps2⟩ :=
    mkEnvironment_ok_inv _ _ e hok
  refine ⟨?_, ?_, fun receiver e2 => rfl⟩
  · intro name l1 l2 h1 h2
    rw [he]
    show jsGet (_ ++ _) name = _
    rw [jsGet_append]
    rw [jsGet_map_entry ms1 (fun k regs => concatRegs regs (jsGet ms2 k)) name]
    rw [h1, h2]
    rfl
  · intro name v1 v2 h1 h2
    rw [he]
    show jsGet (extend ps1 ps2) name = _
    rw [jsGet_extend ps1 ps2 hps1 hps2, h2]

/-- Witness for `envConcat_bias` on one-entry environments sharing the
method name "m" and the property name "p". -/
theorem envConcat_bias_witness :
    Env.envConcat (⟨[("m", [Option.some ⟨fun _ => true, ⟨1, fun _ => 1⟩⟩])],
        [("p", 1)]⟩ : Env Nat)
      [("m", [Option.some ⟨fun _ => false, ⟨1, fun _ => 2⟩⟩])] [("p", 2)] =
      .ok ⟨[("m", [Option.some ⟨fun _ => true, ⟨1, fun _ => 1⟩⟩,
        Option.some ⟨fun _ => false, ⟨1, fun _ => 2⟩⟩])], [("p", 2)]⟩
    ∧ jsGet ([("m", [Option.some (⟨fun _ => true, ⟨1, fun _ => 1⟩⟩ : Registration Nat),
        Option.some ⟨fun _ => false, ⟨1, fun _ => 2⟩⟩])]) "m" =
      Option.some [Option.some ⟨fun _ => true, ⟨1, fun _ => 1⟩⟩,
        Option.some ⟨fun _ => false, ⟨1, fun _ => 2⟩⟩]
    ∧ jsGet [("p", (2 : Nat))] "p" = Option.some 2 := by
  have h := envConcat_bias [("m", [Option.some (⟨fun _ => true, ⟨1, fun _ => 1⟩⟩ : Registration Nat)])]
    [("p", (1 : Nat))] [("m", [Option.some ⟨fun _ => false, ⟨1, fun _ => 2⟩⟩])] [("p", 2)]
    ⟨[("m", [Option.some ⟨fun _ => true, ⟨1, fun _ => 1⟩⟩,
      Option.some ⟨fun _ => false, ⟨1, fun _ => 2⟩⟩])], [("p", 2)]⟩
    rfl (by simp) (by simp)
  refine ⟨rfl, ?_, ?_⟩
  · exact h.1 "m" [Option.some ⟨fun _ => true, ⟨1, fun _ => 1⟩⟩]
      [Option.some ⟨fun _ => false, ⟨1, fun _ => 2⟩⟩] rfl rfl
  · exact h.2.1 "p" 1 2 rfl rfl

/-! ## C5: cata checks its dispatch table eagerly and dispatches positionally -/

theorem tagged_readback {V : Type} [Inhabited V] (fields : List String) (args : List V)
    (hnd : fields.Nodup) (hlen : args.length = fields.length) :
    fields.map (fun fn => (jsGet (objFromOps (fields.zip args)) fn).getD default) = args := by
  have hkeys : (fields.zip args).map Prod.fst = fields :=
    List.map_fst_zip fields args (by omega)
  rw [objFromOps_self _ (by rw [hkeys]; exact hnd)]
  clear hkeys
  induction fields generalizing args with
  | nil =>
    cases args with
    | nil => rfl
    | cons a as => simp at hlen
  | cons f fs ih =>
    cases args with
    | nil => simp at hlen
    | cons a as =>
      rw [List.nodup_cons] at hnd
      rw [List.zip_cons_cons, List.map_cons]
      have hhead : (jsGet ((f, a) :: fs.zip as) f).getD default = a := by
        rw [jsGet_cons, if_pos rfl]
        rfl
      rw [hhead]
      have htail : ∀ fn ∈ fs,
          (jsGet ((f, a) :: fs.zip as) fn).getD default =
          (jsGet (fs.zip as) fn).getD default := by
        intro fn hfn
        rw [jsGet_cons, if_neg (fun hc : f = fn => hnd.1 (hc ▸ hfn))]
      rw [List.map_congr_left htail]
      rw [ih as hnd.2 (by simpa using hlen)]

/-- C5: `cata` checks the dispatch table eagerly — if some variant of the
sum is missing from the table, or the table holds a key that is no variant,
it fails with a TypeError before invoking any table entry (the trace is
empty); when the table's keys are exactly the variant names, it invokes the
entry named by the value's own variant, passing the value's field values
positionally in declared field order. -/
theorem cata_exhaustiveness_dispatch {V : Type} [Inhabited V] :
    (∀ (cs : List (String × List String)) (fields : List String) (field : String)
        (self : List (String × V)) (ds : List (String × (List V → V))),
        cs.any (fun p => (jsGet ds p.1).isNone) = true →
        ∃ msg, cataT cs fields field self ds = (.error (.typeErrorThrown msg), []))
    ∧ (∀ (cs : List (String × List String)) (fields : List String) (field : String)
        (self : List (String × V)) (ds : List (String × (List V → V))),
        cs.all (fun p => (jsGet ds p.1).isSome) = true →
        ds.any (fun p => (jsGet cs p.1).isNone) = true →
        ∃ msg, cataT cs fields field self ds = (.error (.typeErrorThrown msg), []))
    ∧ (∀ (cs : List (String × List String)) (fields : List String) (field : String)
        (args : List V) (ds : List (String × (List V → V)))
        (self : List (String × V)) (h : List V → V),
        cs.all (fun p => (jsGet ds p.1).isSome) = true →
        ds.all (fun p => (jsGet cs p.1).isSome) = true →
        fields.Nodup →
        tagged fields args = .ok self →
        jsGet ds field = Option.some h →
        cataT cs fields field self ds = (.ok (h args), [(field, args)])) := by
  have hnotNone : ∀ {β : Type} (o : Option β), o.isSome = true → (o.isNone = true → False) := by
    intro β o hs hn
    cases o with
    | some b => simp at hn
    | none => simp at hs
  refine ⟨?_, ?_, ?_⟩
  · intro cs fields field self ds hany
    have hsome : (cs.find? (fun p => (jsGet ds p.1).isNone)).isSome :=
      List.find?_isSome.mpr (List.any_eq_true.mp hany)
    cases hf : cs.find? (fun p => (jsGet ds p.1).isNone) with
    | none => rw [hf] at hsome; simp at hsome
    | some q =>
      refine ⟨"Constructors define " ++ q.1 ++ " but not supplied to cata", ?_⟩
      unfold cataT
      rw [hf]
  · intro cs fields field self ds hall hany
    have hf1 : cs.find? (fun p => (jsGet ds p.1).isNone) = Option.none :=
      List.find?_eq_none.mpr (fun p hp =>
        fun hn => hnotNone _ (List.all_eq_true.mp hall p hp) hn)
    have hsome : (ds.find? (fun p => (jsGet cs p.1).isNone)).isSome :=
      List.find?_isSome.mpr (List.any_eq_true.mp hany)
    cases hf2 : ds.find? (fun p => (jsGet cs p.1).isNone) with
    | none => rw [hf2] at hsome; simp at hsome
    | some q =>
      refine ⟨"Found extra constructor supplied to cata: " ++ q.1, ?_⟩
      unfold cataT
      rw [hf1, hf2]
  · intro cs fields field args ds self h hall1 hall2 hnd htag hfield
    have hf1 : cs.find? (fun p => (jsGet ds p.1).isNone) = Option.none :=
      List.find?_eq_none.mpr (fun p hp =>
        fun hn => hnotNone _ (List.all_eq_true.mp hall1 p hp) hn)
    have hf2 : ds.find? (fun p => (jsGet cs p.1).isNone) = Option.none :=
      List.find?_eq_none.mpr (fun p hp =>
        fun hn => hnotNone _ (List.all_eq_true.mp hall2 p hp) hn)
    unfold tagged at htag
    by_cases hlen : (args.length != fields.length) = true
    · rw [if_pos hlen] at htag
      exact absurd htag (by simp)
    · rw [if_neg hlen] at htag
      have hlen2 : args.length = fields.length := by
        simpa using hlen
      have hself : self = objFromOps (fields.zip args) := by
        injection htag with htag
        exact htag.symm
      unfold cataT
      rw [hf1, hf2, hself, tagged_readback fields args hnd hlen2, hfield]

/-- Witness for `cata_exhaustiveness_dispatch` over the sum
`{A: [], B: []}`: a table missing `B` fails, a table with extra `C` fails,
and the exact table dispatches to the value's own variant. -/
theorem cata_exhaustiveness_dispatch_witness :
    (∃ msg, cataT (V := Nat) [("A", []), ("B", [])] [] "A" []
        [("A", fun _ => 1)] = (.error (.typeErrorThrown msg), []))
    ∧ (∃ msg, cataT (V := Nat) [("A", []), ("B", [])] [] "A" []
        [("A", fun _ => 1), ("B", fun _ => 2), ("C", fun _ => 3)] =
        (.error (.typeErrorThrown msg), []))
    ∧ cataT (V := Nat) [("A", []), ("B", [])] [] "A" []
        [("A", fun _ => 42), ("B", fun _ => 0)] = (.ok 42, [("A", [])]) := by
  refine ⟨?_, ?_, ?_⟩
  · exact (cata_exhaustiveness_dispatch (V := Nat)).1 [("A", []), ("B", [])] [] "A" []
      [("A", fun _ => 1)] rfl
  · exact (cata_exhaustiveness_dispatch (V := Nat)).2.1 [("A", []), ("B", [])] [] "A" []
      [("A", fun _ => 1), ("B", fun _ => 2), ("C", fun _ => 3)] rfl rfl
  · exact (cata_exhaustiveness_dispatch (V := Nat)).2.2 [("A", []), ("B", [])] [] "A" []
      [("A", fun _ => 42), ("B", fun _ => 0)] [] (fun _ => 42) rfl rfl
      (by simp) rfl rfl

/-! ## C6: the shrink rules -/

theorem natAbs_halve (x : Int) : (halve x).natAbs = x.natAbs / 2 := by
  unfold halve; split <;> omega

theorem halve_nonneg (x : Int) (h : 0 ≤ x) : 0 ≤ halve x ∧ halve x ≤ x := by
  unfold halve
  rw [if_neg (not_lt.mpr h)]
  constructor <;> omega

theorem halve_nonpos (x : Int) (h : x ≤ 0) : x ≤ halve x ∧ halve x ≤ 0 := by
  unfold halve
  by_cases hx : x < 0
  · rw [if_pos hx]
    constructor <;> omega
  · rw [if_neg hx]
    constructor <;> omega

theorem shrinkNumLoop_bound_pos (n : Int) :
    ∀ (fuel : Nat) (x : Int), 0 ≤ x → x ≤ n →
      ∀ c ∈ shrinkNumLoop n fuel x, 0 ≤ c ∧ c < n := by
  intro fuel
  induction fuel with
  | zero =>
    intro x _ _ c hc
    simp [shrinkNumLoop] at hc
  | succ m ih =>
    intro x hx0 hxn c hc
    rw [shrinkNumLoop] at hc
    by_cases hx : x = 0
    · rw [if_pos hx] at hc
      simp at hc
    · rw [if_neg hx] at hc
      by_cases h2 : halve x = 0
      · rw [if_pos h2] at hc
        simp at hc
      · rw [if_neg h2] at hc
        have hb := halve_nonneg x hx0
        rcases List.mem_cons.mp hc with hc1 | hc2
        · constructor <;> omega
        · exact ih (halve x) hb.1 (le_trans hb.2 hxn) c hc2

theorem shrinkNumLoop_bound_neg (n : Int) :
    ∀ (fuel : Nat) (x : Int), x ≤ 0 → n ≤ x →
      ∀ c ∈ shrinkNumLoop n fuel x, n < c ∧ c ≤ 0 := by
  intro fuel
  induction fuel with
  | zero =>
    intro x _ _ c hc
    simp [shrinkNumLoop] at hc
  | succ m ih =>
    intro x hx0 hxn c hc
    rw [shrinkNumLoop] at hc
    by_cases hx : x = 0
    · rw [if_pos hx] at hc
      simp at hc
    · rw [if_neg hx] at hc
      by_cases h2 : halve x = 0
      · rw [if_pos h2] at hc
        simp at hc
      · rw [if_neg h2] at hc
        have hb := halve_nonpos x hx0
        rcases List.mem_cons.mp hc with hc1 | hc2
        · constructor <;> omega
        · exact ih (halve x) hb.2 (le_trans hxn hb.1) c hc2

theorem shrinkNumAux_natAbs_lt (n : Int) :
    ∀ c ∈ shrinkNumAux n n, c.natAbs < n.natAbs := by
  intro c hc
  unfold shrinkNumAux at hc
  rcases le_or_lt n 0 with hle | hpos
  · have := shrinkNumLoop_bound_neg n n.natAbs n hle (le_refl _) c hc
    omega
  · have := shrinkNumLoop_bound_pos n n.natAbs n (by omega) (le_refl _) c hc
    omega

theorem shrinkStrLoop_mem (s : List Char) :
    ∀ (fuel x : Nat), x ≤ s.length →
      ∀ c ∈ shrinkStrLoop s fuel x, (∃ m, c = s.take m) ∧ c.length < s.length := by
  intro fuel
  induction fuel with
  | zero =>
    intro x _ c hc
    simp [shrinkStrLoop] at hc
  | succ m ih =>
    intro x hxs c hc
    rw [shrinkStrLoop] at hc
    by_cases hx : x = 0
    · rw [if_pos hx] at hc
      simp at hc
    · rw [if_neg hx] at hc
      by_cases h2 : x / 2 = 0
      · rw [if_pos h2] at hc
        simp at hc
      · rw [if_neg h2] at hc
        rcases List.mem_cons.mp hc with hc1 | hc2
        · subst hc1
          refine ⟨⟨s.length - x / 2, rfl⟩, ?_⟩
          rw [List.length_take]
          omega
        · exact ih (x / 2) (by omega) c hc2

theorem shrinkArrLoop_mem {α : Type} (a : List α) :
    ∀ (fuel x : Nat), x ≤ a.length →
      ∀ c ∈ shrinkArrLoop a fuel x, (∃ m, c = a.drop m) ∧ c.length < a.length := by
  intro fuel
  induction fuel with
  | zero =>
    intro x _ c hc
    simp [shrinkArrLoop] at hc
  | succ m ih =>
    intro x hxs c hc
    rw [shrinkArrLoop] at hc
    by_cases hx : x = 0
    · rw [if_pos hx] at hc
      simp at hc
    · rw [if_neg hx] at hc
      by_cases h2 : x / 2 = 0
      · rw [if_pos h2] at hc
        simp at hc
      · rw [if_neg h2] at hc
        rcases List.mem_cons.mp hc with hc1 | hc2
        · subst hc1
          refine ⟨⟨a.length - x / 2, rfl⟩, ?_⟩
          rw [List.length_drop]
          omega
        · exact ih (x / 2) (by omega) c hc2

/-- C6 (amended): per shape the shrink rules produce: for a number, the
candidate 0, the negation of a negative input (a candidate of equal
magnitude), and a halving loop's candidates of strictly smaller magnitude;
for a string, prefixes of the input (always strictly shorter when the input
is non-empty) obtained by dropping a halving trailing part; for an array,
trailing slices of the input (`a.slice(a.length - x)` keeps the LAST `x`
elements, so the leading part is dropped, not the trailing half) — again
strictly shorter for non-empty input; and the registered boolean rule is
defective: it ignores its argument and returns the inner closure itself
rather than a candidate list, and that closure, applied to `true`,
evaluates the unbound identifier `False` and fails with a ReferenceError
(applied to `false` it returns `[]`). -/
theorem shrink_rules :
    (∀ n : Int, (0 : Int) ∈ shrinkNum n ∧ (n < 0 → -n ∈ shrinkNum n)
        ∧ (∀ c ∈ shrinkNumAux n n, c.natAbs < n.natAbs))
    ∧ (∀ (s : List Char), ∀ c ∈ shrinkStr s,
        (∃ m, c = s.take m) ∧ (s ≠ [] → c.length < s.length))
    ∧ (∀ (α : Type) (a : List α), ∀ c ∈ shrinkArr a,
        (∃ m, c = a.drop m) ∧ (a ≠ [] → c.length < a.length))
    ∧ (∀ (argsb : List Bool), shrinkBoolImpl argsb = shrinkBoolInner)
    ∧ shrinkBoolInner true = .error .referenceError
    ∧ shrinkBoolInner false = .ok [] := by
  refine ⟨?_, ?_, ?_, fun argsb => rfl, rfl, rfl⟩
  · intro n
    refine ⟨?_, ?_, shrinkNumAux_natAbs_lt n⟩
    · unfold shrinkNum
      simp
    · intro hneg
      unfold shrinkNum
      rw [if_pos hneg]
      simp
  · intro s c hc
    unfold shrinkStr at hc
    rcases List.mem_cons.mp hc with hc1 | hc2
    · subst hc1
      refine ⟨⟨0, by simp⟩, ?_⟩
      intro hne
      have : s.length ≠ 0 := fun h0 => hne (List.length_eq_zero.mp h0)
      simpa using Nat.pos_of_ne_zero this
    · have := shrinkStrLoop_mem s s.length s.length (le_refl _) c hc2
      exact ⟨this.1, fun _ => this.2⟩
  · intro α a c hc
    unfold shrinkArr at hc
    rcases List.mem_cons.mp hc with hc1 | hc2
    · subst hc1
      refine ⟨⟨a.length, by simp⟩, ?_⟩
      intro hne
      have : a.length ≠ 0 := fun h0 => hne (List.length_eq_zero.mp h0)
      simpa using Nat.pos_of_ne_zero this
    · have := shrinkArrLoop_mem a a.length a.length (le_refl _) c hc2
      exact ⟨this.1, fun _ => this.2⟩


/-- Witness for `shrink_rules` at concrete inputs: shrinking `-4` yields a
list containing `0` and the negation `4`; the loop candidate `-2` is
strictly smaller in magnitude; `shrinkStr "ab"` contains the prefix "a";
`shrinkArr [1,2,3,4]` contains the trailing slice `[3,4]`; and the boolean
rule returns the defective closure. -/
theorem shrink_rules_witness :
    ((0 : Int) ∈ shrinkNum (-4) ∧ (4 : Int) ∈ shrinkNum (-4)
      ∧ (-2 : Int).natAbs < (-4 : Int).natAbs)
    ∧ ((∃ m, ['a'] = ['a', 'b'].take m)
      ∧ (['a'] : List Char).length < (['a', 'b'] : List Char).length)
    ∧ ((∃ m, ([3, 4] : List Nat) = ([1, 2, 3, 4] : List Nat).drop m)
      ∧ ([3, 4] : List Nat).length < ([1, 2, 3, 4] : List Nat).length)
    ∧ shrinkBoolImpl [true] = shrinkBoolInner
    ∧ shrinkBoolInner true = .error .referenceError
    ∧ shrinkBoolInner false = .ok [] := by
  refine ⟨⟨(shrink_rules.1 (-4)).1, (shrink_rules.1 (-4)).2.1 (by decide), ?_⟩, ?_, ?_,
    shrink_rules.2.2.2.1 [true], shrink_rules.2.2.2.2.1, shrink_rules.2.2.2.2.2⟩
  · exact (shrink_rules.1 (-4)).2.2 (-2) (by decide)
  · have h := shrink_rules.2.1 ['a', 'b'] ['a'] (by decide)
    exact ⟨h.1, h.2 (by decide)⟩
  · have h := shrink_rules.2.2.1 Nat [1, 2, 3, 4] [3, 4] (by decide)
    exact ⟨h.1, h.2 (by decide)⟩

/-- Counterexample to C6 as stated: the array rule does not drop a trailing
half — `shrinkArr [1,2,3,4]` is `[[], [3,4], [4]]`, whose candidates are
trailing slices; dropping a trailing half of `[1,2,3,4]` would give
`[1,2]`, which is not among the candidates. -/
theorem shrink_array_not_prefix :
    shrinkArr ([1, 2, 3, 4] : List Nat) = [[], [3, 4], [4]]
    ∧ ([1, 2] : List Nat) ∉ shrinkArr ([1, 2, 3, 4] : List Nat) := by
  constructor
  · rfl
  · decide

/-! ## C7: array equality is bounded by zip -/

theorem foldJs_and_all {α : Type} (l : List α) (p : α → Bool) :
    ∀ acc : Bool, foldJs l acc (fun a t => a && p t) = (acc && l.all p) := by
  induction l with
  | nil => intro acc; simp [foldJs]
  | cons x xs ih =>
    intro acc
    rw [show foldJs (x :: xs) acc (fun a t => a && p t) =
      foldJs xs (acc && p x) (fun a t => a && p t) from rfl]
    rw [ih (acc && p x), List.all_cons, Bool.and_assoc]

theorem zipJs_append_right {α : Type} :
    ∀ (a b c : List α), a.length ≤ b.length → zipJs a (b ++ c) = zipJs a b := by
  intro a
  induction a with
  | nil => intro b c _; rfl
  | cons x xs ih =>
    intro b c hlen
    cases b with
    | nil => simp at hlen
    | cons y ys =>
      rw [List.cons_append]
      show (x, y) :: zipJs xs (ys ++ c) = (x, y) :: zipJs xs ys
      rw [ih ys c (by simpa using hlen)]

theorem zipJs_self_prefix {α : Type} :
    ∀ (a t : List α), zipJs a (a ++ t) = a.map (fun x => (x, x)) := by
  intro a
  induction a with
  | nil => intro t; rfl
  | cons x xs ih =>
    intro t
    rw [List.cons_append, List.map_cons]
    show (x, x) :: zipJs xs (xs ++ t) = (x, x) :: xs.map (fun x => (x, x))
    rw [ih t]

/-- C7: the array `equal` registration is the conjunction of the
element-level comparison over the zipped pairs — `zip` stops at the shorter
length, so elements of the longer array beyond that length never influence
the result (appending anything to the longer side changes nothing); in
particular, when `a` is a proper prefix of `b` and the element comparison
is reflexive on `a`'s elements, `equal(a, b)` returns `true`. -/
theorem equal_arrays_zip_bounded {α : Type} (eq : α → α → Bool) (a b : List α) :
    (equalArr eq a b = (zipJs a b).all (fun t => eq t.1 t.2))
    ∧ (∀ c : List α, a.length ≤ b.length → equalArr eq a (b ++ c) = equalArr eq a b)
    ∧ (a.length < b.length → (∃ t, b = a ++ t) → (∀ x ∈ a, eq x x = true) →
        equalArr eq a b = true) := by
  refine ⟨?_, ?_, ?_⟩
  · unfold equalArr
    rw [foldJs_and_all (zipJs a b) (fun t => eq t.1 t.2) true, Bool.true_and]
  · intro c hlen
    unfold equalArr
    rw [zipJs_append_right a b c hlen]
  · intro _ ht hrefl
    rcases ht with ⟨tl, rfl⟩
    unfold equalArr
    rw [foldJs_and_all (zipJs a (a ++ tl)) (fun q : α × α => eq q.1 q.2) true,
      Bool.true_and, zipJs_self_prefix a tl]
    rw [List.all_eq_true]
    intro q hq
    rcases List.mem_map.mp hq with ⟨x, hx, rfl⟩
    exact hrefl x hx

/-- Witness for `equal_arrays_zip_bounded`: `[1,2]` is a proper prefix of
`[1,2,9]` and the trailing `9` is never compared, so `equal` returns
`true`. -/
theorem equal_arrays_zip_bounded_witness :
    equalArr (fun x y : Nat => x == y) [1, 2] [1, 2, 9] = true := by
  exact (equal_arrays_zip_bounded (fun x y : Nat => x == y) [1, 2] [1, 2, 9]).2.2
    (by decide) ⟨[9], rfl⟩ (by decide)

/-! ## C8: the Validation applicative accumulates failures -/

/-- C8: applying a `Failure([a])` over a `Failure([b])` through the
environment's `ap` registration (which hands the array `append`, i.e.
concatenation, to `vf.ap`) yields `Failure([a, b])`: the receiver's errors
come first, the two error lists are combined by the errors' own semigroup
append for any error lists, and the result is not the first failure
alone. -/
theorem validation_ap_accumulates {γ A B : Type} (a b : γ) :
    apValidation (Validation.failure [a] : Validation (List γ) (A → B))
        (Validation.failure [b]) = Validation.failure [a, b]
    ∧ (∀ (e1 e2 : List γ),
        apValidation (Validation.failure e1 : Validation (List γ) (A → B))
          (Validation.failure e2) = Validation.failure (appendArr e1 e2))
    ∧ (Validation.failure [a, b] : Validation (List γ) B) ≠ Validation.failure [a] := by
  refine ⟨rfl, fun e1 e2 => rfl, ?_⟩
  intro h
  injection h with h2
  simp at h2

/-! ## C9: the object lens laws -/

theorem extend_singleton {α : Type} (o : List (String × α)) (k : String) (v : α)
    (hnd : (o.map Prod.fst).Nodup) : extend o (singleton k v) = setKey o k v := by
  unfold extend
  rw [singleton_eq]
  unfold objFromOps
  rw [List.foldl_append]
  show setKey (objFromOps o) k v = setKey o k v
  rw [objFromOps_self o hnd]

/-- C9 (amended): over a duplicate-free object that already binds `k`,
`objectLens(k)` satisfies get-then-set: writing back the read value returns
an object equal to the original; for every object, set-then-get returns the
value just written, and the setter leaves every other key's binding
untouched (it builds a new object rather than mutating). -/
theorem objectLens_laws_present_key {V : Type} [Inhabited V] (k : String)
    (o : List (String × V)) (v w : V)
    (hnd : (o.map Prod.fst).Nodup) :
    (jsGet o k = Option.some w →
        ((objectLens k).run o).setter (((objectLens k).run o).getter) = o)
    ∧ jsGet (((objectLens k).run o).setter v) k = Option.some v
    ∧ ((objectLens k).run (((objectLens k).run o).setter v)).getter = v
    ∧ (∀ k2, k2 ≠ k → jsGet (((objectLens k).run o).setter v) k2 = jsGet o k2) := by
  have hsetter : ∀ u : V, ((objectLens k).run o).setter u = setKey o k u := by
    intro u
    show extend o (singleton k u) = setKey o k u
    exact extend_singleton o k u hnd
  have hget2 : ∀ u : V, jsGet (((objectLens k).run o).setter u) k = Option.some u := by
    intro u
    rw [hsetter u, jsGet_setKey, if_pos rfl]
  refine ⟨?_, hget2 v, ?_, ?_⟩
  · intro hget
    show ((objectLens k).run o).setter ((jsGet o k).getD default) = o
    rw [hget]
    show ((objectLens k).run o).setter w = o
    rw [hsetter w]
    exact setKey_self o k w hnd hget
  · show (jsGet (((objectLens k).run o).setter v) k).getD default = v
    rw [hget2 v]
    rfl
  · intro k2 hk2
    rw [hsetter v, jsGet_setKey, if_neg hk2]

/-- Witness for `objectLens_laws_present_key` on the one-entry object
`{k: 5}`. -/
theorem objectLens_laws_present_key_witness :
    ((objectLens "k").run [("k", (5 : Nat))]).setter
        (((objectLens "k").run [("k", (5 : Nat))]).getter) = [("k", 5)]
    ∧ jsGet (((objectLens "k").run [("k", (5 : Nat))]).setter 7) "k" = Option.some 7
    ∧ ((objectLens "k").run (((objectLens "k").run [("k", (5 : Nat))]).setter 7)).getter = 7 := by
  have h := objectLens_laws_present_key "k" [("k", (5 : Nat))] 7 5 (by simp)
  exact ⟨h.1 rfl, h.2.1, h.2.2.1⟩

/-- Counterexample to C9 as stated: get-then-set is not the identity on an
object lacking the key — reading `{}` at "k" gives `undefined` and writing
it back produces `{k: undefined}`, a different object. -/
theorem objectLens_get_set_not_identity :
    ((objectLens "k").run ([] : List (String × Option Nat))).setter
        (((objectLens "k").run ([] : List (String × Option Nat))).getter) =
      [("k", Option.none)]
    ∧ ([("k", (Option.none : Option Nat))] : List (String × Option Nat)) ≠ [] := by
  constructor
  · rfl
  · intro h
    simp at h

/-! ## C10: the none branches are identity no-ops -/

/-- C10: `none` is the single shared `None` value and each of its
operations — `map(f)`, `flatMap(f)`, `ap(x)` and `append(x, plus)` —
returns the receiver itself unchanged (the `none` branch is `return this`,
so no new value is constructed) and never invokes `f` or `plus` (the
invocation traces are empty). -/
theorem none_ops_identity {α : Type} (f : α → α) (g : α → Opt α) (s : Opt α)
    (app plus : α → α → α) :
    Opt.mapT Opt.none f = (Opt.none, [])
    ∧ Opt.flatMapT Opt.none g = (Opt.none, [])
    ∧ Opt.ap app Opt.none s = Opt.none
    ∧ Opt.appendT Opt.none s plus = (Opt.none, []) :=
  ⟨rfl, rfl, rfl, rfl⟩
